import Mathlib

/-!
Shallow embedding of the `uint_zigzag` crate (`src/lib.rs`): the `Uint`
wrapper around `u128`, its variable-length ("varint"/LEB128-style) byte
codec (`to_bytes_with_length`, `TryFrom<&[u8]>`, `peek`), the stream
adapters (`to_writer`, `from_reader`) and the `Product` iterator
implementations.

Machine integers are modelled as `Nat` with explicit reduction `% U128`
where Rust's `u128` arithmetic truncates.  Byte buffers and streams are
`List Nat` (each element a byte value).  Fallible operations return
`Except`/`Option`; an out-of-bounds buffer write (a Rust panic) is
modelled as `none`.
-/

namespace UintZigzag

/-- The modulus of Rust `u128` arithmetic: `2 ^ 128`. -/
def U128 : Nat := 2 ^ 128

/-- `pub struct Uint(pub u128)` — the wrapper type. -/
structure Uint where
  val : Nat
  deriving DecidableEq, Repr

/-- `pub const MAX_BYTES: usize = 19` — the maximum number of bytes a
`Uint` will consume. -/
def Uint.MAX_BYTES : Nat := 19

/-- The loop of `impl TryFrom<&[u8]> for Uint`.  The Rust loop walks an
index `i` with `while i < MAX_BYTES`; here `fuel = MAX_BYTES - i` and the
slice tail `value[i..]` is passed as a list.  `i >= value.len()` is the
`[]` case.  Rust's `<< s` on `u128` (with `s ≤ 126 < 128`, so no shift
overflow) discards high bits, hence the `% U128`. -/
def try_from_loop (fuel : Nat) (value : List Nat) (x s : Nat) : Except String Uint :=
  match fuel, value with
  | 0, _ => .error "invalid byte sequence"
  | _ + 1, [] => .error "invalid byte sequence"
  | f + 1, b :: rest =>
    if b < 0x80 then
      .ok ⟨(x ||| b <<< s) % U128⟩
    else
      try_from_loop f rest ((x ||| (b &&& 0x7f) <<< s) % U128) (s + 7)

/-- `impl TryFrom<&[u8]> for Uint` (decode). -/
def Uint.try_from (value : List Nat) : Except String Uint :=
  try_from_loop Uint.MAX_BYTES value 0 0

/-- The loop of `Uint::peek`: `fuel = MAX_BYTES - i`, slice tail as list;
`i` is carried to report the 1-based position of the terminating byte. -/
def peek_loop (fuel : Nat) (value : List Nat) (i : Nat) : Option Nat :=
  match fuel, value with
  | 0, _ => none
  | _ + 1, [] => none
  | f + 1, b :: rest => if b < 0x80 then some (i + 1) else peek_loop f rest (i + 1)

/-- `Uint::peek`: number of bytes a decode would consume, or `none`. -/
def Uint.peek (value : List Nat) : Option Nat :=
  peek_loop Uint.MAX_BYTES value 0

/-- The loop of `Uint::to_bytes_with_length`.  `buffer[i] = v` panics in
Rust when `i` is out of bounds; that is the `none` result.  `x as u8` is
`x % 256`. -/
def to_bytes_loop (x : Nat) (buffer : List Nat) (i : Nat) : Option (List Nat × Nat) :=
  if 0x80 ≤ x then
    if i < buffer.length then
      to_bytes_loop (x >>> 7) (buffer.set i (x % 256 ||| 0x80)) (i + 1)
    else
      none
  else
    if i < buffer.length then some (buffer.set i (x % 256), i + 1) else none
termination_by x
decreasing_by
  simp only [Nat.shiftRight_eq_div_pow]
  exact Nat.div_lt_self (by omega) (by norm_num)

/-- `Uint::to_bytes_with_length`: writes the encoding into `buffer`
starting at index 0 and returns the updated buffer together with the
number of bytes used (`none` models the Rust panic on a too-small
buffer). -/
def Uint.to_bytes_with_length (u : Uint) (buffer : List Nat) : Option (List Nat × Nat) :=
  to_bytes_loop u.val buffer 0

/-- `Uint::to_vec`: encode into a scratch `[0u8; MAX_BYTES]` buffer and
return the used prefix `output[..i]`. -/
def Uint.to_vec (u : Uint) : List Nat :=
  match Uint.to_bytes_with_length u (List.replicate Uint.MAX_BYTES 0) with
  | some (output, i) => output.take i
  | none => []

/-- The byte prefix produced by encoding the `u128` value `v`. -/
def encode (v : Nat) : List Nat :=
  Uint.to_vec ⟨v⟩

/-- Pure description of the byte sequence `to_bytes_loop` writes: one
7-bit group per byte, least significant first, continuation bit `0x80` on
every byte except the last.  Related to `to_bytes_loop` by
`to_bytes_loop_spec` below. -/
def encBytes (x : Nat) : List Nat :=
  if 0x80 ≤ x then (x % 256 ||| 0x80) :: encBytes (x >>> 7) else [x % 256]
termination_by x
decreasing_by
  simp only [Nat.shiftRight_eq_div_pow]
  exact Nat.div_lt_self (by omega) (by norm_num)

/-- The two error kinds `from_reader` can surface: the `UnexpectedEof`
failure of `read_exact` on an exhausted source, and `InvalidData`
(`"invalid byte sequence"`). -/
inductive IOErrorKind where
  | unexpectedEof
  | invalidData
  deriving DecidableEq, Repr

/-- The loop of `Uint::from_reader`.  `fuel = MAX_BYTES - i`; `acc` is
`output[..i]`, the bytes stored by previous iterations; `stream` is the
remaining source.  Each iteration first performs
`read_exact(&mut output[i..i+1])` (error `unexpectedEof` on an empty
source), then tests `peek(&output[..i])` — the slice NOT including the
byte just read — and on success returns `try_from(&output[..i])`
together with the unread remainder of the source.  Fuel exhaustion is
the `i == MAX_BYTES` exit, `InvalidData`. -/
def from_reader_loop (fuel : Nat) (stream acc : List Nat) : Except IOErrorKind (Uint × List Nat) :=
  match fuel with
  | 0 => .error .invalidData
  | f + 1 =>
    match stream with
    | [] => .error .unexpectedEof
    | b :: rest =>
      if (Uint.peek acc).isSome then
        match Uint.try_from acc with
        | .ok u => .ok (u, rest)
        | .error _ => .error .invalidData
      else
        from_reader_loop f rest (acc ++ [b])

/-- `Uint::from_reader`: read from a byte stream; returns the decoded
value and the unconsumed remainder of the stream. -/
def Uint.from_reader (stream : List Nat) : Except IOErrorKind (Uint × List Nat) :=
  from_reader_loop Uint.MAX_BYTES stream []

/-- `Uint::to_writer`: encode into a scratch buffer and write the used
prefix to the sink; the result is the byte sequence handed to the
writer (`none` models the unreachable panic case). -/
def Uint.to_writer (u : Uint) : Option (List Nat) :=
  match Uint.to_bytes_with_length u (List.replicate Uint.MAX_BYTES 0) with
  | some (output, length) => some (output.take length)
  | none => none

/-- `impl Product for Uint`: `let mut i = 0u128; while let Some(v) =
iter.next() { i *= v.0 } Self(i)` — the accumulator starts at `0`. -/
def Uint.product (l : List Uint) : Uint :=
  ⟨l.foldl (fun i v => i * v.val % U128) 0⟩

/-- `impl Product<u128> for Uint` (and likewise each `Product<$tt>`
instance, whose body folds over the values cast to `u128`): accumulator
starts at `0` and is only multiplied. -/
def Uint.product_u128 (l : List Nat) : Uint :=
  ⟨l.foldl (fun i v => i * v % U128) 0⟩

/-! ### Basic facts about the encoded byte sequence -/

lemma encBytes_of_lt {x : Nat} (h : x < 0x80) : encBytes x = [x % 256] := by
  rw [encBytes, if_neg (by omega)]

lemma encBytes_of_ge {x : Nat} (h : 0x80 ≤ x) :
    encBytes x = (x % 256 ||| 0x80) :: encBytes (x >>> 7) := by
  rw [encBytes, if_pos h]

lemma encBytes_ne_nil (x : Nat) : encBytes x ≠ [] := by
  by_cases h : 0x80 ≤ x
  · rw [encBytes_of_ge h]; simp
  · rw [encBytes_of_lt (by omega)]; simp

lemma encBytes_length_pos (x : Nat) : 1 ≤ (encBytes x).length := by
  have := encBytes_ne_nil x
  cases hE : encBytes x with
  | nil => exact absurd hE this
  | cons a l => simp

lemma shiftRight7_lt_pow {x k : Nat} (h : x < 2 ^ (7 * k + 7)) : x >>> 7 < 2 ^ (7 * k) := by
  rw [Nat.shiftRight_eq_div_pow]
  apply Nat.div_lt_of_lt_mul
  calc x < 2 ^ (7 * k + 7) := h
    _ = 2 ^ 7 * 2 ^ (7 * k) := by rw [← pow_add]; ring_nf

lemma encBytes_length_le : ∀ k x, x < 2 ^ (7 * k + 7) → (encBytes x).length ≤ k + 1 := by
  intro k
  induction k with
  | zero =>
    intro x hx
    rw [encBytes_of_lt (by norm_num at hx; omega)]
    simp
  | succ k ih =>
    intro x hx
    by_cases h : 0x80 ≤ x
    · rw [encBytes_of_ge h]
      have hx7 : x >>> 7 < 2 ^ (7 * k + 7) := by
        have : x < 2 ^ (7 * (k + 1) + 7) := hx
        have := shiftRight7_lt_pow (k := k + 1) this
        calc x >>> 7 < 2 ^ (7 * (k + 1)) := this
          _ = 2 ^ (7 * k + 7) := by ring_nf
      simpa using Nat.succ_le_succ (ih (x >>> 7) hx7)
    · rw [encBytes_of_lt (by omega)]; simp

lemma encBytes_length_le_19 {x : Nat} (h : x < U128) : (encBytes x).length ≤ 19 := by
  have : x < 2 ^ (7 * 18 + 7) := lt_of_lt_of_le h (by norm_num [U128])
  have := encBytes_length_le 18 x this
  omega

/-! ### `to_bytes_loop` writes exactly `encBytes` into the buffer -/

lemma to_bytes_loop_spec : ∀ x buffer i, i + (encBytes x).length ≤ buffer.length →
    to_bytes_loop x buffer i =
      some (buffer.take i ++ encBytes x ++ buffer.drop (i + (encBytes x).length),
        i + (encBytes x).length) := by
  intro x
  induction x using Nat.strong_induction_on with
  | _ x ih =>
    intro buffer i hlen
    by_cases h : 0x80 ≤ x
    · rw [encBytes_of_ge h] at hlen ⊢
      have hpos := encBytes_length_pos (x >>> 7)
      simp only [List.length_cons] at hlen
      have hi : i < buffer.length := by omega
      rw [to_bytes_loop, if_pos h, if_pos hi]
      have hx7 : x >>> 7 < x := by
        rw [Nat.shiftRight_eq_div_pow]
        exact Nat.div_lt_self (by omega) (by norm_num)
      rw [ih (x >>> 7) hx7 _ (i + 1) (by simp only [List.length_set]; omega)]
      rw [List.set_take, List.drop_set]
      rw [if_pos (by omega)]
      rw [List.set_eq_take_cons_drop _ (by simp [hi])]
      rw [List.take_take, List.drop_take]
      congr 1
      · rw [Nat.min_def, if_pos (by omega)]
        simp only [Nat.sub_self, List.take_zero]
        have hshape : i + 1 + (encBytes (x >>> 7)).length
            = i + (1 + (encBytes (x >>> 7)).length) := by omega
        rw [hshape]
        simp
        exact ⟨by rw [Nat.add_comm 1], by omega⟩
    · rw [encBytes_of_lt (by omega)] at hlen ⊢
      simp only [List.length_cons, List.length_nil] at hlen
      have hi : i < buffer.length := by omega
      rw [to_bytes_loop, if_neg h, if_pos hi]
      rw [List.set_eq_take_cons_drop _ hi]
      simp

lemma encode_eq_encBytes {v : Nat} (hv : v < U128) : encode v = encBytes v := by
  have hlen : (encBytes v).length ≤ 19 := encBytes_length_le_19 hv
  unfold encode Uint.to_vec Uint.to_bytes_with_length
  rw [show (⟨v⟩ : Uint).val = v from rfl]
  rw [to_bytes_loop_spec v _ 0 (by simpa [Uint.MAX_BYTES] using hlen)]
  simp only [List.take_nil, List.take_zero, List.nil_append, Nat.zero_add]
  exact List.take_left' rfl

/-! ### Decode round-trip -/

lemma or_shiftLeft_eq_add {x s : Nat} (y : Nat) (hx : x < 2 ^ s) :
    x ||| y <<< s = y * 2 ^ s + x := by
  rw [Nat.shiftLeft_eq, Nat.or_comm, mul_comm y]
  exact (Nat.mul_add_lt_is_or hx y).symm

lemma cont_byte_ge {v : Nat} : 0x80 ≤ v % 256 ||| 0x80 := by
  apply Nat.testBit_implies_ge (i := 7)
  rw [Nat.testBit_or]
  simp only [Bool.or_eq_true]
  exact Or.inr (by decide)

lemma cont_byte_mask (v : Nat) : (v % 256 ||| 0x80) &&& 0x7f = v % 128 := by
  rw [Nat.and_distrib_right]
  rw [show (0x7f : Nat) = 2 ^ 7 - 1 from rfl, Nat.and_pow_two_sub_one_eq_mod]
  rw [Nat.mod_mod_of_dvd v (by norm_num : (128 : Nat) ∣ 256)]
  rw [Nat.and_pow_two_sub_one_eq_mod]
  norm_num

lemma try_from_loop_encBytes : ∀ v fuel x s, (encBytes v).length ≤ fuel →
    x < 2 ^ s → v * 2 ^ s + x < U128 →
    try_from_loop fuel (encBytes v) x s = .ok ⟨v * 2 ^ s + x⟩ := by
  intro v
  induction v using Nat.strong_induction_on with
  | _ v ih =>
    intro fuel x s hfuel hx hbound
    by_cases h : 0x80 ≤ v
    · rw [encBytes_of_ge h] at hfuel ⊢
      simp only [List.length_cons] at hfuel
      obtain ⟨f, rfl⟩ : ∃ f, fuel = f + 1 := ⟨fuel - 1, by omega⟩
      rw [try_from_loop]
      rw [if_neg (by have := cont_byte_ge (v := v); omega)]
      rw [cont_byte_mask]
      have hv7 : v >>> 7 < v := by
        rw [Nat.shiftRight_eq_div_pow]
        exact Nat.div_lt_self (by omega) (by norm_num)
      have hor : x ||| (v % 128) <<< s = (v % 128) * 2 ^ s + x :=
        or_shiftLeft_eq_add _ hx
      have hmono : (v % 128) * 2 ^ s ≤ v * 2 ^ s :=
        Nat.mul_le_mul_right _ (Nat.mod_le v 128)
      have hlt : (v % 128) * 2 ^ s + x < U128 := by omega
      rw [hor, Nat.mod_eq_of_lt hlt]
      have harith : (v >>> 7) * 2 ^ (s + 7) + ((v % 128) * 2 ^ s + x) = v * 2 ^ s + x := by
        rw [Nat.shiftRight_eq_div_pow, pow_add]
        conv_rhs => rw [← Nat.div_add_mod v 128]
        norm_num
        ring
      have hx' : (v % 128) * 2 ^ s + x < 2 ^ (s + 7) := by
        rw [pow_add]
        have h1 : (v % 128) * 2 ^ s ≤ 127 * 2 ^ s :=
          Nat.mul_le_mul_right _ (by omega)
        have h2 : (2 : Nat) ^ 7 = 128 := by norm_num
        rw [h2]
        omega
      have := ih (v >>> 7) hv7 f ((v % 128) * 2 ^ s + x) (s + 7)
        (by omega) hx' (by rw [harith]; exact hbound)
      rw [harith] at this
      exact this
    · rw [encBytes_of_lt (by omega)] at hfuel ⊢
      simp only [List.length_cons, List.length_nil] at hfuel
      obtain ⟨f, rfl⟩ : ∃ f, fuel = f + 1 := ⟨fuel - 1, by omega⟩
      rw [try_from_loop]
      rw [Nat.mod_eq_of_lt (show v < 256 by omega)]
      rw [if_pos (by omega)]
      rw [or_shiftLeft_eq_add v hx, Nat.mod_eq_of_lt hbound]

/-! ### peek -/

lemma peek_loop_encBytes : ∀ v fuel i, (encBytes v).length ≤ fuel →
    peek_loop fuel (encBytes v) i = some (i + (encBytes v).length) := by
  intro v
  induction v using Nat.strong_induction_on with
  | _ v ih =>
    intro fuel i hfuel
    by_cases h : 0x80 ≤ v
    · rw [encBytes_of_ge h] at hfuel ⊢
      simp only [List.length_cons] at hfuel ⊢
      obtain ⟨f, rfl⟩ : ∃ f, fuel = f + 1 := ⟨fuel - 1, by omega⟩
      rw [peek_loop]
      rw [if_neg (by have := cont_byte_ge (v := v); omega)]
      have hv7 : v >>> 7 < v := by
        rw [Nat.shiftRight_eq_div_pow]
        exact Nat.div_lt_self (by omega) (by norm_num)
      rw [ih (v >>> 7) hv7 f (i + 1) (by omega)]
      congr 1
      omega
    · rw [encBytes_of_lt (by omega)] at hfuel ⊢
      simp only [List.length_cons, List.length_nil] at hfuel ⊢
      obtain ⟨f, rfl⟩ : ∃ f, fuel = f + 1 := ⟨fuel - 1, by omega⟩
      rw [peek_loop]
      rw [Nat.mod_eq_of_lt (show v < 256 by omega)]
      rw [if_pos (by omega)]

lemma peek_loop_none_of_all_cont : ∀ fuel l i, (∀ b ∈ l, 0x80 ≤ b) →
    peek_loop fuel l i = none := by
  intro fuel
  induction fuel with
  | zero => intro l i _; rw [peek_loop]
  | succ f ih =>
    intro l i h
    cases l with
    | nil => rw [peek_loop]
    | cons b rest =>
      rw [peek_loop]
      rw [if_neg (by have := h b (by simp); omega)]
      exact ih rest (i + 1) (fun c hc => h c (by simp [hc]))

lemma encBytes_dropLast_cont : ∀ v, ∀ b ∈ (encBytes v).dropLast, 0x80 ≤ b := by
  intro v
  induction v using Nat.strong_induction_on with
  | _ v ih =>
    intro b hb
    by_cases h : 0x80 ≤ v
    · rw [encBytes_of_ge h] at hb
      rw [List.dropLast_cons_of_ne_nil (encBytes_ne_nil _)] at hb
      rcases List.mem_cons.mp hb with rfl | hb'
      · exact cont_byte_ge
      · have hv7 : v >>> 7 < v := by
          rw [Nat.shiftRight_eq_div_pow]
          exact Nat.div_lt_self (by omega) (by norm_num)
        exact ih (v >>> 7) hv7 b hb'
    · rw [encBytes_of_lt (by omega)] at hb
      simp at hb

lemma encBytes_take_cont {v k : Nat} (hk : k < (encBytes v).length) :
    ∀ b ∈ (encBytes v).take k, 0x80 ≤ b := by
  intro b hb
  apply encBytes_dropLast_cont v
  rw [List.dropLast_eq_take]
  have heq : (encBytes v).take k = ((encBytes v).take ((encBytes v).length - 1)).take k := by
    rw [List.take_take, Nat.min_def, if_pos (by omega)]
  rw [heq] at hb
  exact List.mem_of_mem_take hb

/-! ### Decode failure mirrors peek failure -/

lemma try_from_loop_error_iff_peek_none : ∀ fuel l x s i,
    (try_from_loop fuel l x s = .error "invalid byte sequence") ↔
      peek_loop fuel l i = none := by
  intro fuel
  induction fuel with
  | zero => intro l x s i; simp [try_from_loop, peek_loop]
  | succ f ih =>
    intro l x s i
    cases l with
    | nil => simp [try_from_loop, peek_loop]
    | cons b rest =>
      rw [try_from_loop, peek_loop]
      by_cases hb : b < 0x80
      · rw [if_pos hb, if_pos hb]; simp
      · rw [if_neg hb, if_neg hb]; exact ih rest _ _ (i + 1)

lemma peek_loop_none_iff : ∀ fuel l i,
    peek_loop fuel l i = none ↔ ∀ j, j < min l.length fuel → 0x80 ≤ l.getD j 0 := by
  intro fuel
  induction fuel with
  | zero => intro l i; simp [peek_loop]
  | succ f ih =>
    intro l i
    cases l with
    | nil => simp [peek_loop]
    | cons b rest =>
      rw [peek_loop]
      by_cases hb : b < 0x80
      · rw [if_pos hb]
        constructor
        · intro h; cases h
        · intro h
          have h0 := h 0 (by simp)
          simp at h0
          omega
      · rw [if_neg hb]
        rw [ih rest (i + 1)]
        constructor
        · intro h j hj
          cases j with
          | zero => simpa using (by omega : (0x80 : Nat) ≤ b)
          | succ j =>
            have := h j (by simp at hj ⊢; omega)
            simpa using this
        · intro h j hj
          have := h (j + 1) (by simp at hj ⊢; omega)
          simpa using this

/-! ### Encoded length equals the number of 7-bit groups -/

lemma size_shiftRight7 {v : Nat} (h : 0x80 ≤ v) :
    Nat.size (v >>> 7) = Nat.size v - 7 := by
  have h8 : 8 ≤ Nat.size v := by
    have : 7 < Nat.size v := Nat.lt_size.mpr (by norm_num; omega)
    omega
  apply Nat.le_antisymm
  · rw [Nat.size_le, Nat.shiftRight_eq_div_pow]
    apply Nat.div_lt_of_lt_mul
    calc v < 2 ^ Nat.size v := Nat.lt_size_self v
      _ = 2 ^ 7 * 2 ^ (Nat.size v - 7) := by rw [← pow_add]; congr 1; omega
  · by_contra hc
    push_neg at hc
    have hup : v >>> 7 < 2 ^ (Nat.size v - 8) :=
      Nat.size_le.mp (by omega)
    have hlow : 2 ^ (Nat.size v - 1) ≤ v := Nat.lt_size.mp (by omega)
    have hdn : 2 ^ (Nat.size v - 8) ≤ v >>> 7 := by
      rw [Nat.shiftRight_eq_div_pow]
      rw [Nat.le_div_iff_mul_le (by norm_num : 0 < 2 ^ 7)]
      calc 2 ^ (Nat.size v - 8) * 2 ^ 7 = 2 ^ (Nat.size v - 1) := by
            rw [← pow_add]; congr 1; omega
        _ ≤ v := hlow
    omega

lemma encBytes_length_eq_size : ∀ v, 0x80 ≤ v →
    (encBytes v).length = (Nat.size v + 6) / 7 := by
  intro v
  induction v using Nat.strong_induction_on with
  | _ v ih =>
    intro h
    have h8 : 8 ≤ Nat.size v := by
      have : 7 < Nat.size v := Nat.lt_size.mpr (by norm_num; omega)
      omega
    have hv7 : v >>> 7 < v := by
      rw [Nat.shiftRight_eq_div_pow]
      exact Nat.div_lt_self (by omega) (by norm_num)
    rw [encBytes_of_ge h]
    simp only [List.length_cons]
    by_cases h7 : 0x80 ≤ v >>> 7
    · rw [ih (v >>> 7) hv7 h7, size_shiftRight7 h]
      omega
    · rw [encBytes_of_lt (by omega)]
      simp only [List.length_cons, List.length_nil]
      have hub : Nat.size v ≤ 14 := by
        rw [Nat.size_le]
        have : v >>> 7 < 2 ^ 7 := by norm_num; omega
        rw [Nat.shiftRight_eq_div_pow] at this
        have := (Nat.div_lt_iff_lt_mul (by norm_num : 0 < 2 ^ 7)).mp this
        calc v < 2 ^ 7 * 2 ^ 7 := this
          _ = 2 ^ 14 := by norm_num
      omega

/-! ### from_reader behaviour -/

lemma from_reader_loop_eof : ∀ fuel stream acc, stream.length < fuel →
    (∀ b ∈ stream, 0x80 ≤ b) → (∀ c ∈ acc, 0x80 ≤ c) →
    from_reader_loop fuel stream acc = .error .unexpectedEof := by
  intro fuel
  induction fuel with
  | zero => intro stream acc h _ _; omega
  | succ f ih =>
    intro stream acc hlen hs hacc
    cases stream with
    | nil => rw [from_reader_loop]
    | cons b rest =>
      rw [from_reader_loop]
      have hpeek : Uint.peek acc = none := peek_loop_none_of_all_cont _ _ _ hacc
      rw [hpeek]
      simp only [Option.isSome_none, Bool.false_eq_true, if_false]
      refine ih rest (acc ++ [b]) (by simp at hlen ⊢; omega)
        (fun c hc => hs c (by simp [hc])) ?_
      intro c hc
      rcases List.mem_append.mp hc with h1 | h1
      · exact hacc c h1
      · simp at h1; subst h1; exact hs _ (by simp)

lemma from_reader_loop_invalid : ∀ fuel stream acc, fuel ≤ stream.length →
    (∀ j, j + 1 < fuel → 0x80 ≤ stream.getD j 0) → (∀ c ∈ acc, 0x80 ≤ c) →
    from_reader_loop fuel stream acc = .error .invalidData := by
  intro fuel
  induction fuel with
  | zero => intro stream acc _ _ _; rw [from_reader_loop]
  | succ f ih =>
    intro stream acc hlen hs hacc
    cases stream with
    | nil => simp at hlen
    | cons b rest =>
      rw [from_reader_loop]
      have hpeek : Uint.peek acc = none := peek_loop_none_of_all_cont _ _ _ hacc
      rw [hpeek]
      simp only [Option.isSome_none, Bool.false_eq_true, if_false]
      cases f with
      | zero => rw [from_reader_loop]
      | succ f' =>
        refine ih rest (acc ++ [b]) (by simp at hlen ⊢; omega) ?_ ?_
        · intro j hj
          have := hs (j + 1) (by omega)
          simpa using this
        · intro c hc
          rcases List.mem_append.mp hc with h1 | h1
          · exact hacc c h1
          · simp at h1; subst h1
            have := hs 0 (by omega)
            simpa using this

lemma to_writer_eq_encBytes {v : Nat} (hv : v < U128) :
    Uint.to_writer ⟨v⟩ = some (encBytes v) := by
  unfold Uint.to_writer Uint.to_bytes_with_length
  rw [show (⟨v⟩ : Uint).val = v from rfl]
  rw [to_bytes_loop_spec v _ 0 (by simpa [Uint.MAX_BYTES] using encBytes_length_le_19 hv)]
  simp only [List.take_zero, List.nil_append, Nat.zero_add]
  rw [List.take_left' rfl]

lemma foldl_mul_uint_zero : ∀ l : List Uint,
    l.foldl (fun i v => i * v.val % U128) 0 = 0 := by
  intro l
  induction l with
  | nil => rfl
  | cons a l ih =>
    rw [List.foldl_cons]
    simpa using ih

lemma foldl_mul_nat_zero : ∀ l : List Nat,
    l.foldl (fun i v => i * v % U128) 0 = 0 := by
  intro l
  induction l with
  | nil => rfl
  | cons a l ih =>
    rw [List.foldl_cons]
    simpa using ih

lemma size_u128_max : Nat.size (2 ^ 128 - 1) = 128 := by
  apply Nat.le_antisymm
  · rw [Nat.size_le]; norm_num
  · have : 127 < Nat.size (2 ^ 128 - 1) := Nat.lt_size.mpr (by norm_num)
    omega

/-! ### Claim theorems -/

/-- Claim C1: for every `u128` value `V`, encoding `V` with
`to_bytes_with_length` and then decoding the produced byte prefix with
`Uint::try_from` yields exactly `Ok(Uint(V))` — encode/decode round-trip
exactness over the full 128-bit domain. -/
theorem claim1_round_trip (V : Nat) (hV : V < U128) :
    Uint.try_from (encode V) = .ok ⟨V⟩ := by
  rw [encode_eq_encBytes hV]
  have h := try_from_loop_encBytes V Uint.MAX_BYTES 0 0
    (by simpa [Uint.MAX_BYTES] using encBytes_length_le_19 hV)
    (by norm_num) (by simpa using hV)
  unfold Uint.try_from
  simpa using h

/-- Witness for C1 at the concrete value `345678`. -/
theorem claim1_round_trip_witness :
    (345678 : Nat) < U128 ∧ Uint.try_from (encode 345678) = .ok ⟨345678⟩ :=
  ⟨by norm_num [U128], claim1_round_trip 345678 (by norm_num [U128])⟩

/-- Claim C2: for every `u128` value `V`, `Uint::peek` on the exact encoding
of `V` returns `Some(n)` where `n` is the encoded length, and `peek` on any
proper prefix of that encoding (strictly shorter than `n`) returns `None`. -/
theorem claim2_peek_agreement (V : Nat) (hV : V < U128) :
    Uint.peek (encode V) = some (encode V).length ∧
    ∀ k, k < (encode V).length → Uint.peek ((encode V).take k) = none := by
  rw [encode_eq_encBytes hV]
  constructor
  · unfold Uint.peek
    simpa using peek_loop_encBytes V Uint.MAX_BYTES 0
      (by simpa [Uint.MAX_BYTES] using encBytes_length_le_19 hV)
  · intro k hk
    exact peek_loop_none_of_all_cont _ _ _ (encBytes_take_cont hk)

/-- Witness for C2 at the concrete value `2048`. -/
theorem claim2_peek_agreement_witness :
    (2048 : Nat) < U128 ∧
      (Uint.peek (encode 2048) = some (encode 2048).length ∧
        ∀ k, k < (encode 2048).length → Uint.peek ((encode 2048).take k) = none) :=
  ⟨by norm_num [U128], claim2_peek_agreement 2048 (by norm_num [U128])⟩

/-- Claim C3: the length returned by `to_bytes_with_length` is the minimum
number of 7-bit groups needed to represent `V`: `n = 1` for `V < 128`,
otherwise `n = ceil(bitlength(V)/7)` (`bitlength` is `Nat.size`, so the
ceiling is `(Nat.size V + 6) / 7`), and the value `0` encodes to exactly the
single byte `0x00`. -/
theorem claim3_minimal_length (V : Nat) (hV : V < U128) :
    ∃ buf n, Uint.to_bytes_with_length ⟨V⟩ (List.replicate Uint.MAX_BYTES 0)
        = some (buf, n) ∧
      (V < 0x80 → n = 1) ∧ (0x80 ≤ V → n = (Nat.size V + 6) / 7) ∧
      (V = 0 → buf.take n = [0x00]) := by
  unfold Uint.to_bytes_with_length
  rw [show (⟨V⟩ : Uint).val = V from rfl]
  rw [to_bytes_loop_spec V _ 0 (by simpa [Uint.MAX_BYTES] using encBytes_length_le_19 hV)]
  refine ⟨_, _, rfl, ?_, ?_, ?_⟩
  · intro h
    rw [encBytes_of_lt h]
    simp
  · intro h
    simpa using encBytes_length_eq_size V h
  · rintro rfl
    rw [encBytes_of_lt (by norm_num)]
    simp

/-- Witness for C3 at the concrete value `0`. -/
theorem claim3_minimal_length_witness :
    (0 : Nat) < U128 ∧
      ∃ buf n, Uint.to_bytes_with_length ⟨0⟩ (List.replicate Uint.MAX_BYTES 0)
          = some (buf, n) ∧
        ((0 : Nat) < 0x80 → n = 1) ∧ (0x80 ≤ (0 : Nat) → n = (Nat.size 0 + 6) / 7) ∧
        ((0 : Nat) = 0 → buf.take n = [0x00]) :=
  ⟨by norm_num [U128], claim3_minimal_length 0 (by norm_num [U128])⟩

/-- Claim C4: the encoder produces exactly the documented boundary outputs:
`encode 0 = [0x00]`, `encode 127 = [0x7F]`, `encode 128 = [0x80, 0x01]`,
`encode 345678 = [0xCE, 0x8C, 0x15]`, `encode 2048 = [0x80, 0x10]`, and the
encoding of `u128::MAX` is exactly 19 bytes long. -/
theorem claim4_boundary_values :
    encode 0 = [0x00] ∧ encode 127 = [0x7F] ∧ encode 128 = [0x80, 0x01] ∧
    encode 345678 = [0xCE, 0x8C, 0x15] ∧ encode 2048 = [0x80, 0x10] ∧
    (encode (2 ^ 128 - 1)).length = 19 := by
  refine ⟨?_, ?_, ?_, ?_, ?_, ?_⟩
  · rw [encode_eq_encBytes (by norm_num [U128])]; simp [encBytes]
  · rw [encode_eq_encBytes (by norm_num [U128])]; simp [encBytes]
  · rw [encode_eq_encBytes (by norm_num [U128])]; simp [encBytes]
  · rw [encode_eq_encBytes (by norm_num [U128])]; simp [encBytes]
  · rw [encode_eq_encBytes (by norm_num [U128])]; simp [encBytes]
  · rw [encode_eq_encBytes (by norm_num [U128])]
    rw [encBytes_length_eq_size _ (by norm_num)]
    rw [size_u128_max]

/-- Claim C5: for every byte slice `b`, `Uint::try_from b` returns
`Err("invalid byte sequence")` if and only if `Uint::peek b` returns `None`,
and that happens exactly when no byte with a clear continuation bit
(value `< 0x80`) occurs among the first `min (length b) MAX_BYTES` bytes. -/
theorem claim5_decode_error_iff_peek_none (b : List Nat) :
    (Uint.try_from b = .error "invalid byte sequence" ↔ Uint.peek b = none) ∧
    (Uint.peek b = none ↔
      ∀ j, j < min b.length Uint.MAX_BYTES → 0x80 ≤ b.getD j 0) := by
  unfold Uint.try_from Uint.peek
  exact ⟨try_from_loop_error_iff_peek_none Uint.MAX_BYTES b 0 0 0,
    peek_loop_none_iff Uint.MAX_BYTES b 0⟩

/-- Claim C6 (refuted — defect in `from_reader`): the loop tests
`peek(&output[..i])`, the accumulated bytes EXCLUDING the byte just read,
so it does not stop at the terminating byte: on the stream
`[0x05, 0x99]` it consumes BOTH bytes (one past the 1-byte encoding of 5),
and on the exact 1-byte stream `[0x05]` it hits end-of-input instead of
returning `Uint(5)`. -/
theorem claim6_from_reader_reads_past_terminator :
    Uint.from_reader [0x05, 0x99] = .ok (⟨5⟩, []) ∧
    Uint.from_reader [0x05] = .error .unexpectedEof :=
  ⟨rfl, rfl⟩

/-- Claim C7 (refuted — defect in `from_reader`): writing a value with
`to_writer` and reading the same channel back with `from_reader` does NOT
return the value: for `2048` (2-byte encoding) the read fails with the
propagated end-of-input error, and for `u128::MAX` (full 19-byte form) it
fails with `InvalidData`. -/
theorem claim7_stream_symmetry_fails :
    Uint.to_writer ⟨2048⟩ = some [0x80, 0x10] ∧
    Uint.from_reader [0x80, 0x10] = .error .unexpectedEof ∧
    Uint.to_writer ⟨2 ^ 128 - 1⟩ = some (List.replicate 18 0xFF ++ [0x03]) ∧
    Uint.from_reader (List.replicate 18 0xFF ++ [0x03]) = .error .invalidData := by
  refine ⟨?_, rfl, ?_, ?_⟩
  · rw [to_writer_eq_encBytes (by norm_num [U128])]; simp [encBytes]
  · rw [to_writer_eq_encBytes (by norm_num [U128])]
    congr 1
    simp [encBytes, List.replicate]
  · rfl

/-- Claim C8: when `from_reader`'s source ends before any byte with a clear
continuation bit has been delivered (including the empty source, with fewer
than `MAX_BYTES` bytes in total), `from_reader` returns the propagated
end-of-input I/O error from `read_exact`, never a silently defaulted
value. -/
theorem claim8_truncated_stream_eof (stream : List Nat)
    (hlen : stream.length < Uint.MAX_BYTES) (hcont : ∀ b ∈ stream, 0x80 ≤ b) :
    Uint.from_reader stream = .error .unexpectedEof ∧
    ∀ u rest, Uint.from_reader stream ≠ .ok (u, rest) := by
  have h : Uint.from_reader stream = .error .unexpectedEof := by
    unfold Uint.from_reader
    exact from_reader_loop_eof Uint.MAX_BYTES stream [] hlen hcont (by simp)
  exact ⟨h, fun u rest => by rw [h]; simp⟩

/-- Witness for C8 at the concrete truncated stream `[0x80, 0x80]`. -/
theorem claim8_truncated_stream_eof_witness :
    ([0x80, 0x80] : List Nat).length < Uint.MAX_BYTES ∧
    (∀ b ∈ ([0x80, 0x80] : List Nat), 0x80 ≤ b) ∧
    (Uint.from_reader [0x80, 0x80] = .error .unexpectedEof ∧
      ∀ u rest, Uint.from_reader [0x80, 0x80] ≠ .ok (u, rest)) :=
  ⟨by decide, by decide, claim8_truncated_stream_eof [0x80, 0x80] (by decide) (by decide)⟩

/-- Claim C9: for every `u128` value `V` and every buffer of length at least
`MAX_BYTES = 19`, `to_bytes_with_length` does not panic (every buffer index
accessed is in bounds, modelled by the `some` result), returns a length `n`
with `1 ≤ n ≤ 19`, and leaves every byte at index `n` and beyond
unchanged. -/
theorem claim9_to_bytes_frame (V : Nat) (buffer : List Nat) (hV : V < U128)
    (hbuf : Uint.MAX_BYTES ≤ buffer.length) :
    ∃ buf n, Uint.to_bytes_with_length ⟨V⟩ buffer = some (buf, n) ∧
      1 ≤ n ∧ n ≤ Uint.MAX_BYTES ∧ buf.length = buffer.length ∧
      ∀ j, n ≤ j → buf.getD j 0 = buffer.getD j 0 := by
  have hlen19 := encBytes_length_le_19 hV
  unfold Uint.to_bytes_with_length
  rw [show (⟨V⟩ : Uint).val = V from rfl]
  rw [to_bytes_loop_spec V buffer 0 (by simp [Uint.MAX_BYTES] at hbuf; omega)]
  refine ⟨_, _, rfl, by simpa using encBytes_length_pos V,
    by simpa [Uint.MAX_BYTES] using hlen19, ?_, ?_⟩
  · simp only [List.take_zero, List.nil_append, Nat.zero_add,
      List.length_append, List.length_drop]
    simp [Uint.MAX_BYTES] at hbuf
    omega
  · intro j hj
    simp only [List.take_zero, List.nil_append, Nat.zero_add] at hj ⊢
    rw [List.getD_eq_getElem?_getD, List.getD_eq_getElem?_getD]
    rw [List.getElem?_append_right (by omega)]
    rw [List.getElem?_drop]
    congr 2
    omega

/-- Witness for C9 at `V = 300` and a buffer of 19 sevens. -/
theorem claim9_to_bytes_frame_witness :
    (300 : Nat) < U128 ∧ Uint.MAX_BYTES ≤ (List.replicate 19 7 : List Nat).length ∧
    ∃ buf n, Uint.to_bytes_with_length ⟨300⟩ (List.replicate 19 7) = some (buf, n) ∧
      1 ≤ n ∧ n ≤ Uint.MAX_BYTES ∧ buf.length = (List.replicate 19 7 : List Nat).length ∧
      ∀ j, n ≤ j → buf.getD j 0 = (List.replicate 19 7 : List Nat).getD j 0 :=
  ⟨by norm_num [U128], by decide,
    claim9_to_bytes_frame 300 (List.replicate 19 7) (by norm_num [U128]) (by decide)⟩

/-- Claim C10: the `Product` implementations initialise the accumulator to
`0` and only multiply, so the product of ANY iterator of `Uint` values (and
likewise of raw `u128`/component-typed integers) is `Uint(0)`; in
particular the product of a non-empty sequence of non-zero values is `0`,
and the product of the empty sequence is `0` rather than `1`. -/
theorem claim10_product_always_zero :
    (∀ l : List Uint, Uint.product l = ⟨0⟩) ∧
    (∀ l : List Nat, Uint.product_u128 l = ⟨0⟩) ∧
    Uint.product [⟨3⟩, ⟨4⟩] = ⟨0⟩ ∧
    Uint.product ([] : List Uint) = ⟨0⟩ := by
  refine ⟨fun l => ?_, fun l => ?_, rfl, rfl⟩
  · unfold Uint.product
    rw [foldl_mul_uint_zero l]
  · unfold Uint.product_u128
    rw [foldl_mul_nat_zero l]

end UintZigzag
